import Mathlib

/-!
Verification of `arxiv_scan/entry_evaluation.py`: the `Entry` data model, the
marking and scoring operations, and the filter/sort/truncate ranker, embedded
shallowly in Lean.  Python strings are modelled through `List Char`; the
`re` module is modelled on the domain the program's contracts cover (patterns
free of regex metacharacters match literally; other patterns are modelled as
failing to compile, which is exact on the concrete invalid patterns used
below).
-/

/-- Lower-case every character, the model of Python `str.lower()` for the
ASCII text handled here. -/
def lowerL (s : List Char) : List Char := s.map Char.toLower

/-- The left-to-right, non-overlapping scan of Python `str.count`, written
with a skip counter: after recognising a match of length `k` at the current
position the next `k - 1` positions lie inside the match and are skipped, so
the scan resumes right after the match, exactly like `str.count`. -/
def scanCount (needle : List Char) : List Char → Nat → Nat
  | [], _ => 0
  | c :: t, skip =>
    if 0 < skip then scanCount needle t (skip - 1)
    else if needle.isPrefixOf (c :: t) then 1 + scanCount needle t (needle.length - 1)
    else scanCount needle t 0

/-- Python `str.count`: the number of non-overlapping occurrences of `needle`
in `hay`, scanning left to right; the empty needle is counted
`hay.length + 1` times, as in Python. -/
def pyCount (needle : List Char) (hay : List Char) : Nat :=
  if needle = [] then hay.length + 1 else scanCount needle hay 0

/-- The same scan as `scanCount`, but collecting the `(start, stop)` span of
every match, with `i` the absolute offset of the current position. -/
def scanSpans (needle : List Char) : List Char → Nat → Nat → List (Nat × Nat)
  | [], _, _ => []
  | c :: t, i, skip =>
    if 0 < skip then scanSpans needle t (i + 1) (skip - 1)
    else if needle.isPrefixOf (c :: t) then
      (i, i + needle.length) :: scanSpans needle t (i + 1) (needle.length - 1)
    else scanSpans needle t (i + 1) 0

/-- The spans `(start, stop)` of the non-overlapping, left-to-right matches of
the literal pattern `needle` in `hay`, offsets counted from `i`: the model of
`re.finditer(needle, hay)` for a pattern free of regex metacharacters.  The
empty pattern yields a zero-width match at every position, as in Python. -/
def occSpans (needle : List Char) (hay : List Char) (i : Nat) : List (Nat × Nat) :=
  if needle = [] then (List.range (hay.length + 1)).map (fun j => (i + j, i + j))
  else scanSpans needle hay i 0

/-- A word character in the sense of the regex `\b` boundary: `[A-Za-z0-9_]`
(the entries handled here are ASCII). -/
def isWordChar (c : Char) : Bool := c.isAlphanum || c == '_'

/-- Word-ness of the character at position `j` of `s`; positions outside the
string count as non-word. -/
def wordAt (s : List Char) (j : Nat) : Bool :=
  match s[j]? with
  | some c => isWordChar c
  | none => false

/-- Whether position `j` of `s` is a `\b` word boundary: the word-ness of the
character before `j` differs from the word-ness of the character at `j`. -/
def boundaryAt (s : List Char) (j : Nat) : Bool :=
  (match j with
   | 0 => false
   | k + 1 => wordAt s k) != wordAt s j

/-- The call `re.search(r'\b...\b', name, re.IGNORECASE)` viewed as a Boolean, for a
fragment free of regex metacharacters: some position of `name` starts a
case-insensitive occurrence of `frag` flanked by word boundaries on both
sides. -/
def wbSearch (frag : List Char) (name : List Char) : Bool :=
  (List.range (name.length + 1)).any (fun j =>
    decide (((lowerL name).drop j).take frag.length = lowerL frag)
      && boundaryAt name j && boundaryAt name (j + frag.length))

/-- The characters that are special in a Python regular expression.  A keyword
or author fragment containing none of them is matched by `re` exactly as a
literal substring. -/
def regexMetaChars : List Char :=
  ['\\', '.', '^', '$', '*', '+', '?', '\x7b', '\x7d', '[', ']', '(', ')', '|']

/-- Whether `s`, used as a regex pattern, is a plain literal: it contains no
regex metacharacter. -/
def regexLiteral (s : List Char) : Bool := s.all (fun c => !(regexMetaChars.contains c))

/-- The `Entry` class of `entry_evaluation.py`: one arxiv entry with its
bibliographic fields and its mutable annotation state (`title_marks`,
`author_marks`, `rating`).  The two dates are never inspected by the evaluator
or the ranker and are kept as opaque strings. -/
structure Entry where
  id : String
  title : String
  authors : List String
  abstract : String
  category : String
  date_submitted : String
  date_updated : String
  title_marks : List Nat
  author_marks : List Bool
  rating : Int
deriving Repr, DecidableEq

/-- Constructor `Entry.__init__`: an entry starts with the given bibliographic fields,
empty `title_marks`, one `False` author mark per author, and the sentinel
rating `-1`.  The `number` parameter is accepted and discarded, as in the
source. -/
def Entry.init (id : String) (title : String) (authors : List String)
    (abstract : String) (date_submitted : String) (date_updated : String)
    (category : String) (number : Option Int) : Entry :=
  { id := id, title := title, authors := authors, abstract := abstract,
    category := category, date_submitted := date_submitted,
    date_updated := date_updated,
    title_marks := [],
    author_marks := List.replicate authors.length false,
    rating := -1 }

/-- Method `Entry.mark_title_position`: appends `position` to `title_marks`.  The
source appends to a Python list; it does not insert into a set. -/
def Entry.mark_title_position (e : Entry) (position : Nat) : Entry :=
  { e with title_marks := e.title_marks ++ [position] }

/-- The positions appended by one `Entry.mark_title_keyword` call on a title
whose lowered text is `titleLower`: the loop
`for _ in range(counts): for (s, e) in zip(starts, ends): for pos in range(s, e)`
appends every offset of every match span, once per counted occurrence. -/
def keywordMarkList (titleLower : List Char) (keyword : List Char) : List Nat :=
  (List.range (pyCount keyword titleLower)).flatMap (fun _ =>
    (occSpans keyword titleLower 0).flatMap (fun se => List.range' se.1 (se.2 - se.1)))

/-- Method `Entry.mark_title_keyword`: appends to `title_marks` every character offset
of every `re.finditer` match of `keyword` in the lowered title, repeated once
per `str.count` occurrence. -/
def Entry.mark_title_keyword (e : Entry) (keyword : String) : Entry :=
  { e with title_marks :=
      e.title_marks ++ keywordMarkList (lowerL e.title.data) keyword.data }

/-- Method `Entry.mark_author`: sets `author_marks[number] = True`.  `List.set` is a
no-op out of range, where Python would raise `IndexError`; the evaluator only
passes indices produced by `enumerate(self.authors)`, which are in range. -/
def Entry.mark_author (e : Entry) (number : Nat) : Entry :=
  { e with author_marks := e.author_marks.set number true }

/-- One iteration of the keyword loop of `Entry.evaluate`: lower the keyword,
count it in the lowered title, mark the title and add `counts * weight` when
the count is positive, then add the abstract count times the weight when
`rate_abstract` is set. -/
def Entry.evalKeywordStep (rate_abstract : Bool) (e : Entry) (kv : String × Int) : Entry :=
  let keyword : String := String.mk (lowerL kv.1.data)
  let counts := pyCount keyword.data (lowerL e.title.data)
  let e1 :=
    if 0 < counts then
      let em := e.mark_title_keyword keyword
      { em with rating := em.rating + (counts : Int) * kv.2 }
    else e
  if rate_abstract then
    { e1 with rating :=
        e1.rating + (pyCount keyword.data (lowerL e1.abstract.data) : Int) * kv.2 }
  else e1

/-- The inner author loop of `Entry.evaluate`, written with an explicit index:
`for i, a in enumerate(self.authors)` marks author `i` and adds the weight
whenever the fragment occurs in `a` as a case-insensitive whole word. -/
def evalAuthorsAux (frag : List Char) (w : Int) :
    List String → Nat → Entry → Entry
  | [], _, acc => acc
  | a :: rest, i, acc =>
    evalAuthorsAux frag w rest (i + 1)
      (if wbSearch frag a.data then
        let am := acc.mark_author i
        { am with rating := am.rating + w }
      else acc)

/-- One iteration of the author loop of `Entry.evaluate`: run the inner loop
over the (immutable) author list for one table row. -/
def Entry.evalAuthorStep (e : Entry) (kv : String × Int) : Entry :=
  evalAuthorsAux kv.1.data kv.2 e.authors 0 e

/-- Method `Entry.evaluate`: reset `rating` to `0`, run the keyword loop over
`keyword_ratings`, then the author loop over `author_ratings`; the final
`rating` field is the returned rating. -/
def Entry.evaluate (e : Entry) (keyword_ratings : List (String × Int))
    (author_ratings : List (String × Int)) (rate_abstract : Bool) : Entry :=
  let e0 := { e with rating := 0 }
  let e1 := keyword_ratings.foldl (Entry.evalKeywordStep rate_abstract) e0
  author_ratings.foldl Entry.evalAuthorStep e1

/-- Function `evaluate_entries`: evaluates every entry of the list in order and returns
the list itself. -/
def evaluate_entries (entries : List Entry) (keyword_ratings : List (String × Int))
    (author_ratings : List (String × Int)) (rate_abstract : Bool) : List Entry :=
  entries.map (fun e => e.evaluate keyword_ratings author_ratings rate_abstract)

/-- The comparison realised by
`sorted(..., key=lambda x: x.rating, reverse=not reverse)`: descending rating
when `reverse` is false, ascending when it is true.  CPython's sort is stable
for either direction. -/
def sortLE (reverse : Bool) (a : Entry) (b : Entry) : Bool :=
  if reverse then decide (a.rating ≤ b.rating) else decide (b.rating ≤ a.rating)

/-- Function `sort_entries`: keep the entries with `rating >= rating_min`, sort them by
rating (descending unless `reverse`), and cut the result to the first `length`
entries when `length` is given and non-negative (a negative `length` is turned
into `None`, i.e. unbounded). -/
def sort_entries (entries : List Entry) (rating_min : Int) (reverse : Bool)
    (length : Option Int) : List Entry :=
  let len : Option Int :=
    match length with
    | some n => if n < 0 then none else some n
    | none => none
  let entries_filtered := entries.filter (fun e => decide (rating_min ≤ e.rating))
  let results := entries_filtered.mergeSort (sortLE reverse)
  match len with
  | none => results
  | some n => results.take n.toNat

/-- Case-insensitive, non-overlapping occurrence count of `keyword` in `text`,
both sides lowered: the count used by the specification's rating formula. -/
def ciCount (keyword : String) (text : String) : Nat :=
  pyCount (lowerL keyword.data) (lowerL text.data)

/-- The specification's rating contribution of one keyword table row: the
title count times the weight, plus the abstract count times the weight when
abstracts are rated. -/
def keywordScore (title : String) (abstract : String) (rate_abstract : Bool)
    (kv : String × Int) : Int :=
  (ciCount kv.1 title : Int) * kv.2 +
    (if rate_abstract then (ciCount kv.1 abstract : Int) * kv.2 else 0)

/-- The specification's rating contribution of one author table row: the
weight once for every author whose name contains the fragment as a
case-insensitive whole word. -/
def authorScore (authors : List String) (kv : String × Int) : Int :=
  ((authors.filter (fun a => wbSearch kv.1.data a.data)).length : Int) * kv.2

/-- The specification's rating formula: the sum of all keyword contributions
plus the sum of all author contributions. -/
def ratingFormula (title : String) (abstract : String) (authors : List String)
    (keyword_ratings : List (String × Int)) (author_ratings : List (String × Int))
    (rate_abstract : Bool) : Int :=
  (keyword_ratings.map (keywordScore title abstract rate_abstract)).sum
    + (author_ratings.map (authorScore authors)).sum

/-- The positions one `Entry.evalKeywordStep` appends to `title_marks`:
the full `keywordMarkList` when the lowered keyword has a positive count in
the lowered title, nothing otherwise. -/
def keywordStepMarks (title : String) (kv : String × Int) : List Nat :=
  if 0 < pyCount (lowerL kv.1.data) (lowerL title.data) then
    keywordMarkList (lowerL title.data) (lowerL kv.1.data)
  else []

/-- Whether `re.compile` accepts the pattern, as modelled here: a pattern free
of regex metacharacters compiles (and matches literally); every other pattern
is modelled as raising `re.error`.  This under-approximates Python, which also
accepts some metacharacter patterns, but it is exact on the literal fragment
and on the concrete invalid patterns (such as `"("`) used below. -/
def reCompileOk (pattern : List Char) : Bool := regexLiteral pattern

/-- Whether `re.compile(r'\b' + frag + r'\b', re.IGNORECASE)` succeeds,
modelled as: the interpolated fragment is free of regex metacharacters. -/
def wbCompileOk (frag : List Char) : Bool := regexLiteral frag

/-- Method `Entry.mark_title_keyword` with the `re.finditer` failure modelled: the
pattern is only compiled when the occurrence count is positive (the marking
loop body does not run otherwise), raising `re.error` on a keyword that does
not compile. -/
def Entry.markTitleKeywordE (e : Entry) (keyword : String) : Except String Entry :=
  let tl := lowerL e.title.data
  if 0 < pyCount keyword.data tl then
    if reCompileOk keyword.data then
      Except.ok { e with title_marks := e.title_marks ++ keywordMarkList tl keyword.data }
    else Except.error "re.error"
  else Except.ok e

/-- One keyword iteration of `Entry.evaluate` with the `re` failure path
modelled; a raised `re.error` propagates. -/
def Entry.evalKeywordStepE (rate_abstract : Bool) (e : Entry) (kv : String × Int) :
    Except String Entry :=
  let keyword : String := String.mk (lowerL kv.1.data)
  let counts := pyCount keyword.data (lowerL e.title.data)
  let r1 : Except String Entry :=
    if 0 < counts then
      match e.markTitleKeywordE keyword with
      | Except.error msg => Except.error msg
      | Except.ok em => Except.ok { em with rating := em.rating + (counts : Int) * kv.2 }
    else Except.ok e
  match r1 with
  | Except.error msg => Except.error msg
  | Except.ok e1 =>
    if rate_abstract then
      Except.ok { e1 with rating :=
          e1.rating + (pyCount keyword.data (lowerL e1.abstract.data) : Int) * kv.2 }
    else Except.ok e1

/-- A loop over rating-table rows in which a raised exception aborts the
remaining iterations. -/
def foldStepsE (f : Entry → (String × Int) → Except String Entry) :
    List (String × Int) → Entry → Except String Entry
  | [], e => Except.ok e
  | kv :: rest, e =>
    match f e kv with
    | Except.error msg => Except.error msg
    | Except.ok e1 => foldStepsE f rest e1

/-- The inner author loop of `Entry.evaluate` with the `re.search` compilation
failure modelled: the word-boundary pattern is compiled on every iteration and
raises `re.error` on a fragment that does not compile. -/
def evalAuthorsAuxE (frag : List Char) (w : Int) :
    List String → Nat → Entry → Except String Entry
  | [], _, acc => Except.ok acc
  | a :: rest, i, acc =>
    if wbCompileOk frag then
      evalAuthorsAuxE frag w rest (i + 1)
        (if wbSearch frag a.data then
          let am := acc.mark_author i
          { am with rating := am.rating + w }
        else acc)
    else Except.error "re.error"

/-- Method `Entry.evaluate` with the `re` failure paths modelled: the first pattern
that fails to compile aborts the evaluation with `re.error`, as a raised
exception would. -/
def Entry.evaluateE (e : Entry) (keyword_ratings : List (String × Int))
    (author_ratings : List (String × Int)) (rate_abstract : Bool) :
    Except String Entry :=
  match foldStepsE (Entry.evalKeywordStepE rate_abstract) keyword_ratings
      { e with rating := 0 } with
  | Except.error msg => Except.error msg
  | Except.ok e1 =>
    foldStepsE (fun acc kv => evalAuthorsAuxE kv.1.data kv.2 acc.authors 0 acc)
      author_ratings e1

/-- Function `evaluate_entries` with the `re` failure paths modelled: the first raised
exception aborts the whole batch. -/
def evaluate_entriesE (entries : List Entry) (keyword_ratings : List (String × Int))
    (author_ratings : List (String × Int)) (rate_abstract : Bool) :
    Except String (List Entry) :=
  match entries with
  | [] => Except.ok []
  | e :: rest =>
    match e.evaluateE keyword_ratings author_ratings rate_abstract with
    | Except.error msg => Except.error msg
    | Except.ok e1 =>
      match evaluate_entriesE rest keyword_ratings author_ratings rate_abstract with
      | Except.error msg => Except.error msg
      | Except.ok rest1 => Except.ok (e1 :: rest1)

/-- A concrete entry used by the witnesses and counterexamples below
(scenarios 1 and 2 of the specification). -/
def sampleEntry : Entry :=
  Entry.init "1234.5678" "AI research on AI systems" ["John Smith", "Jane Doe"]
    "We study systems." "2026-01-01" "2026-01-02" "cs.AI" none

/-- A concrete one-author, one-character-title entry used by the
counterexamples below. -/
def tinyEntry : Entry :=
  Entry.init "0000.0000" "a" ["Ann Bee"] "" "2026-01-01" "2026-01-01" "cs.AI" none

theorem data_mk (l : List Char) : (String.mk l).data = l := rfl

theorem evalKeywordStep_title (b : Bool) (e : Entry) (kv : String × Int) :
    (Entry.evalKeywordStep b e kv).title = e.title := by
  simp only [Entry.evalKeywordStep, Entry.mark_title_keyword]
  split_ifs <;> rfl

theorem evalKeywordStep_abstract (b : Bool) (e : Entry) (kv : String × Int) :
    (Entry.evalKeywordStep b e kv).abstract = e.abstract := by
  simp only [Entry.evalKeywordStep, Entry.mark_title_keyword]
  split_ifs <;> rfl

theorem evalKeywordStep_authors (b : Bool) (e : Entry) (kv : String × Int) :
    (Entry.evalKeywordStep b e kv).authors = e.authors := by
  simp only [Entry.evalKeywordStep, Entry.mark_title_keyword]
  split_ifs <;> rfl

theorem evalKeywordStep_author_marks (b : Bool) (e : Entry) (kv : String × Int) :
    (Entry.evalKeywordStep b e kv).author_marks = e.author_marks := by
  simp only [Entry.evalKeywordStep, Entry.mark_title_keyword]
  split_ifs <;> rfl

theorem evalKeywordStep_title_marks (b : Bool) (e : Entry) (kv : String × Int) :
    (Entry.evalKeywordStep b e kv).title_marks
      = e.title_marks ++ keywordStepMarks e.title kv := by
  simp only [Entry.evalKeywordStep, Entry.mark_title_keyword, keywordStepMarks,
    ciCount, data_mk]
  split_ifs <;> first | rfl | simp

theorem evalKeywordStep_rating (b : Bool) (e : Entry) (kv : String × Int) :
    (Entry.evalKeywordStep b e kv).rating
      = e.rating + keywordScore e.title e.abstract b kv := by
  simp only [Entry.evalKeywordStep, Entry.mark_title_keyword, keywordScore,
    ciCount, data_mk]
  split_ifs
  · dsimp only
    ring
  · rename_i hb hc
    have c0 : pyCount (lowerL kv.1.data) (lowerL e.title.data) = 0 := by omega
    simp [c0]
  · dsimp only
    ring
  · rename_i hb hc
    have c0 : pyCount (lowerL kv.1.data) (lowerL e.title.data) = 0 := by omega
    simp [c0]

/-- The keyword loop of `Entry.evaluate` preserves the immutable fields and
`author_marks`, appends every step's marks, and adds every step's score. -/
theorem evalKeywords_foldl (b : Bool) (kws : List (String × Int)) (e : Entry) :
    (kws.foldl (Entry.evalKeywordStep b) e).title = e.title
    ∧ (kws.foldl (Entry.evalKeywordStep b) e).abstract = e.abstract
    ∧ (kws.foldl (Entry.evalKeywordStep b) e).authors = e.authors
    ∧ (kws.foldl (Entry.evalKeywordStep b) e).author_marks = e.author_marks
    ∧ (kws.foldl (Entry.evalKeywordStep b) e).title_marks
        = e.title_marks ++ kws.flatMap (keywordStepMarks e.title)
    ∧ (kws.foldl (Entry.evalKeywordStep b) e).rating
        = e.rating + (kws.map (keywordScore e.title e.abstract b)).sum := by
  induction kws generalizing e with
  | nil => simp
  | cons kv rest ih =>
    simp only [List.foldl_cons, List.flatMap_cons, List.map_cons, List.sum_cons]
    obtain ⟨h1, h2, h3, h4, h5, h6⟩ := ih (Entry.evalKeywordStep b e kv)
    refine ⟨?_, ?_, ?_, ?_, ?_, ?_⟩
    · rw [h1, evalKeywordStep_title]
    · rw [h2, evalKeywordStep_abstract]
    · rw [h3, evalKeywordStep_authors]
    · rw [h4, evalKeywordStep_author_marks]
    · rw [h5, evalKeywordStep_title_marks, evalKeywordStep_title, List.append_assoc]
    · rw [h6, evalKeywordStep_rating, evalKeywordStep_title, evalKeywordStep_abstract,
        add_assoc]

/-- The inner author loop preserves the immutable fields, `title_marks` and the
length of `author_marks`, and adds the weight once per matching author. -/
theorem evalAuthorsAux_fold (frag : List Char) (w : Int) (as : List String) :
    ∀ (i : Nat) (acc : Entry),
      (evalAuthorsAux frag w as i acc).title = acc.title
      ∧ (evalAuthorsAux frag w as i acc).abstract = acc.abstract
      ∧ (evalAuthorsAux frag w as i acc).authors = acc.authors
      ∧ (evalAuthorsAux frag w as i acc).title_marks = acc.title_marks
      ∧ (evalAuthorsAux frag w as i acc).author_marks.length
          = acc.author_marks.length
      ∧ (evalAuthorsAux frag w as i acc).rating
          = acc.rating
            + ((as.filter (fun a => wbSearch frag a.data)).length : Int) * w := by
  induction as with
  | nil => intro i acc; simp [evalAuthorsAux]
  | cons a rest ih =>
    intro i acc
    simp only [evalAuthorsAux, List.filter_cons]
    by_cases hw : wbSearch frag a.data
    · simp only [hw, if_true, ite_true]
      obtain ⟨h1, h2, h3, h4, h5, h6⟩ :=
        ih (i + 1)
          { acc.mark_author i with rating := (acc.mark_author i).rating + w }
      refine ⟨h1, h2, h3, h4, ?_, ?_⟩
      · rw [h5]
        simp [Entry.mark_author]
      · rw [h6]
        simp only [Entry.mark_author, List.length_cons]
        push_cast
        ring
    · simp only [hw, if_false, ite_false, Bool.false_eq_true]
      exact ih (i + 1) acc

theorem getD_set_true (m : List Bool) (i j : Nat) (hj : j < m.length) :
    (m.set i true).getD j false = (m.getD j false || (i == j)) := by
  by_cases h : i = j
  · subst h
    simp [List.getD_eq_getElem?_getD, List.getElem?_set_self (show i < m.length from hj)]
  · simp [List.getD_eq_getElem?_getD, List.getElem?_set_ne h, h]

/-- Elementwise effect of the inner author loop on `author_marks`: position `j`
becomes true exactly when it was true already or the author at offset `j - i`
of the remaining author list matches the fragment. -/
theorem evalAuthorsAux_marks_getD (frag : List Char) (w : Int) (as : List String) :
    ∀ (i : Nat) (acc : Entry) (j : Nat), j < acc.author_marks.length →
      (evalAuthorsAux frag w as i acc).author_marks.getD j false
        = (acc.author_marks.getD j false
           || (decide (i ≤ j) && decide (j - i < as.length)
               && wbSearch frag ((as.getD (j - i) "").data))) := by
  induction as with
  | nil => intro i acc j hj; simp [evalAuthorsAux]
  | cons a rest ih =>
    intro i acc j hj
    simp only [evalAuthorsAux]
    by_cases hw : wbSearch frag a.data
    · simp only [hw, ite_true]
      have hlen : ({ acc.mark_author i with
          rating := (acc.mark_author i).rating + w } : Entry).author_marks.length
          = acc.author_marks.length := by
        simp [Entry.mark_author]
      rw [ih (i + 1) _ j (by rw [hlen]; exact hj)]
      have hm : ({ acc.mark_author i with
          rating := (acc.mark_author i).rating + w } : Entry).author_marks
          = acc.author_marks.set i true := rfl
      rw [hm, getD_set_true _ _ _ hj]
      rcases Nat.lt_trichotomy i j with hij | hij | hij
      · have d1 : decide (i ≤ j) = true := by simp; omega
        have d2 : decide (i + 1 ≤ j) = true := by simp; omega
        have d3 : (i == j) = false := by simp; omega
        have d4 : j - i = (j - (i + 1)) + 1 := by omega
        have d5 : decide (j - i < rest.length + 1)
            = decide (j - (i + 1) < rest.length) := by
          simp only [decide_eq_decide]
          omega
        simp only [List.length_cons, d1, d2, d3, d5, Bool.true_and, Bool.or_false,
          Bool.or_assoc]
        rw [d4]
        simp [List.getD_cons_succ]
      · subst hij
        have d2 : decide (i + 1 ≤ i) = false := by simp
        simp [d2, Nat.sub_self, hw]
      · have d1 : decide (i ≤ j) = false := by simp; omega
        have d2 : decide (i + 1 ≤ j) = false := by simp; omega
        have d3 : (i == j) = false := by simp; omega
        simp [d1, d2, d3]
    · simp only [hw, if_false, ite_false, Bool.false_eq_true]
      rw [ih (i + 1) acc j hj]
      rcases Nat.lt_trichotomy i j with hij | hij | hij
      · have d2 : decide (i + 1 ≤ j) = decide (i ≤ j) := by
          simp only [decide_eq_decide]
          omega
        have d4 : j - i = (j - (i + 1)) + 1 := by omega
        have d5 : decide (j - i < rest.length + 1)
            = decide (j - (i + 1) < rest.length) := by
          simp only [decide_eq_decide]
          omega
        simp only [List.length_cons, d2, d5]
        rw [d4]
        simp [List.getD_cons_succ]
      · subst hij
        have d2 : decide (i + 1 ≤ i) = false := by simp
        simp [d2, Nat.sub_self, hw]
      · have d1 : decide (i ≤ j) = false := by simp; omega
        have d2 : decide (i + 1 ≤ j) = false := by simp; omega
        simp [d1, d2]

/-- One author-table row, as applied by `Entry.evalAuthorStep`: immutable
fields and `title_marks` preserved, `author_marks` length preserved, the
weight added once per matching author. -/
theorem evalAuthorStep_fold (e : Entry) (kv : String × Int) :
    (Entry.evalAuthorStep e kv).title = e.title
    ∧ (Entry.evalAuthorStep e kv).abstract = e.abstract
    ∧ (Entry.evalAuthorStep e kv).authors = e.authors
    ∧ (Entry.evalAuthorStep e kv).title_marks = e.title_marks
    ∧ (Entry.evalAuthorStep e kv).author_marks.length = e.author_marks.length
    ∧ (Entry.evalAuthorStep e kv).rating = e.rating + authorScore e.authors kv := by
  simpa only [Entry.evalAuthorStep, authorScore] using
    evalAuthorsAux_fold kv.1.data kv.2 e.authors 0 e

theorem evalAuthorStep_marks_getD (e : Entry) (kv : String × Int) (j : Nat)
    (hj : j < e.author_marks.length) (hja : j < e.authors.length) :
    (Entry.evalAuthorStep e kv).author_marks.getD j false
      = (e.author_marks.getD j false
         || wbSearch kv.1.data ((e.authors.getD j "").data)) := by
  have h := evalAuthorsAux_marks_getD kv.1.data kv.2 e.authors 0 e j hj
  simpa [Entry.evalAuthorStep, Nat.zero_le, hja] using h

/-- The whole author loop of `Entry.evaluate`. -/
theorem evalAuthors_foldl (aus : List (String × Int)) (e : Entry) :
    (aus.foldl Entry.evalAuthorStep e).title = e.title
    ∧ (aus.foldl Entry.evalAuthorStep e).abstract = e.abstract
    ∧ (aus.foldl Entry.evalAuthorStep e).authors = e.authors
    ∧ (aus.foldl Entry.evalAuthorStep e).title_marks = e.title_marks
    ∧ (aus.foldl Entry.evalAuthorStep e).author_marks.length = e.author_marks.length
    ∧ (aus.foldl Entry.evalAuthorStep e).rating
        = e.rating + (aus.map (authorScore e.authors)).sum := by
  induction aus generalizing e with
  | nil => simp
  | cons kv rest ih =>
    simp only [List.foldl_cons, List.map_cons, List.sum_cons]
    obtain ⟨g1, g2, g3, g4, g5, g6⟩ := evalAuthorStep_fold e kv
    obtain ⟨h1, h2, h3, h4, h5, h6⟩ := ih (Entry.evalAuthorStep e kv)
    refine ⟨?_, ?_, ?_, ?_, ?_, ?_⟩
    · rw [h1, g1]
    · rw [h2, g2]
    · rw [h3, g3]
    · rw [h4, g4]
    · rw [h5, g5]
    · rw [h6, g6, g3, add_assoc]

/-- Elementwise effect of the whole author loop on `author_marks`. -/
theorem evalAuthors_foldl_marks_getD (aus : List (String × Int)) (e : Entry)
    (j : Nat) (hj : j < e.author_marks.length) (hja : j < e.authors.length) :
    (aus.foldl Entry.evalAuthorStep e).author_marks.getD j false
      = (e.author_marks.getD j false
         || aus.any (fun kv => wbSearch kv.1.data ((e.authors.getD j "").data))) := by
  induction aus generalizing e with
  | nil => simp
  | cons kv rest ih =>
    simp only [List.foldl_cons, List.any_cons]
    obtain ⟨g1, g2, g3, g4, g5, g6⟩ := evalAuthorStep_fold e kv
    rw [ih (Entry.evalAuthorStep e kv) (by rw [g5]; exact hj) (by rw [g3]; exact hja),
      evalAuthorStep_marks_getD e kv j hj hja, g3, Bool.or_assoc]

/-- Method `Entry.evaluate`, decomposed: the immutable fields are preserved, the
length of `author_marks` is preserved, the marks of every keyword with a
positive count are appended to `title_marks`, and the final rating is the
specification's formula. -/
theorem evaluate_fold (e : Entry) (kws aus : List (String × Int)) (b : Bool) :
    (e.evaluate kws aus b).title = e.title
    ∧ (e.evaluate kws aus b).abstract = e.abstract
    ∧ (e.evaluate kws aus b).authors = e.authors
    ∧ (e.evaluate kws aus b).author_marks.length = e.author_marks.length
    ∧ (e.evaluate kws aus b).title_marks
        = e.title_marks ++ kws.flatMap (keywordStepMarks e.title)
    ∧ (e.evaluate kws aus b).rating
        = ratingFormula e.title e.abstract e.authors kws aus b := by
  simp only [Entry.evaluate, ratingFormula]
  obtain ⟨k1, k2, k3, k4, k5, k6⟩ :=
    evalKeywords_foldl b kws { e with rating := 0 }
  obtain ⟨a1, a2, a3, a4, a5, a6⟩ :=
    evalAuthors_foldl aus (kws.foldl (Entry.evalKeywordStep b) { e with rating := 0 })
  refine ⟨?_, ?_, ?_, ?_, ?_, ?_⟩
  · rw [a1, k1]
  · rw [a2, k2]
  · rw [a3, k3]
  · rw [a5, k4]
  · rw [a4, k5]
  · rw [a6, k6, k3]
    simp

/-- Elementwise effect of `Entry.evaluate` on `author_marks`: a position
becomes true exactly when it was true before the call or some author-table
fragment matches that author. -/
theorem evaluate_marks_getD (e : Entry) (kws aus : List (String × Int)) (b : Bool)
    (j : Nat) (hj : j < e.author_marks.length) (hja : j < e.authors.length) :
    (e.evaluate kws aus b).author_marks.getD j false
      = (e.author_marks.getD j false
         || aus.any (fun kv => wbSearch kv.1.data ((e.authors.getD j "").data))) := by
  simp only [Entry.evaluate]
  obtain ⟨k1, k2, k3, k4, k5, k6⟩ :=
    evalKeywords_foldl b kws { e with rating := 0 }
  rw [evalAuthors_foldl_marks_getD aus _ j (by rw [k4]; exact hj) (by rw [k3]; exact hja),
    k4, k3]

theorem sortLE_trans (rev : Bool) : ∀ a b c : Entry,
    sortLE rev a b → sortLE rev b c → sortLE rev a c := by
  intro a b c hab hbc
  unfold sortLE at *
  cases rev <;> simp_all <;> omega

theorem sortLE_total (rev : Bool) : ∀ a b : Entry,
    sortLE rev a b || sortLE rev b a := by
  intro a b
  unfold sortLE
  cases rev <;> simp <;> omega

theorem sort_entries_none_eq (entries : List Entry) (rmin : Int) (rev : Bool) :
    sort_entries entries rmin rev none
      = (entries.filter (fun e => decide (rmin ≤ e.rating))).mergeSort (sortLE rev) := rfl

/-- On a keyword whose lowered form is metacharacter-free, the fallible
marking agrees with the pure one. -/
theorem markTitleKeywordE_ok (e : Entry) (keyword : String)
    (h : regexLiteral keyword.data = true) :
    e.markTitleKeywordE keyword = Except.ok (e.mark_title_keyword keyword) := by
  unfold Entry.markTitleKeywordE Entry.mark_title_keyword reCompileOk
  by_cases hc : 0 < pyCount keyword.data (lowerL e.title.data)
  · rw [if_pos hc, if_pos h]
  · rw [if_neg hc]
    have hc0 : pyCount keyword.data (lowerL e.title.data) = 0 := by omega
    unfold keywordMarkList
    rw [hc0]
    simp

theorem evalKeywordStepE_ok (b : Bool) (e : Entry) (kv : String × Int)
    (h : regexLiteral (lowerL kv.1.data) = true) :
    Entry.evalKeywordStepE b e kv = Except.ok (Entry.evalKeywordStep b e kv) := by
  have hm := markTitleKeywordE_ok e (String.mk (lowerL kv.1.data))
    (by rw [data_mk]; exact h)
  by_cases hc : 0 < pyCount (lowerL kv.1.data) (lowerL e.title.data) <;>
    by_cases hb : b <;>
      simp [Entry.evalKeywordStepE, Entry.evalKeywordStep, hm, hc, hb]

theorem foldStepsE_kw_ok (b : Bool) (kws : List (String × Int)) :
    ∀ e : Entry, (∀ kv ∈ kws, regexLiteral (lowerL kv.1.data) = true) →
      foldStepsE (Entry.evalKeywordStepE b) kws e
        = Except.ok (kws.foldl (Entry.evalKeywordStep b) e) := by
  induction kws with
  | nil => intro e h; rfl
  | cons kv rest ih =>
    intro e h
    unfold foldStepsE
    rw [evalKeywordStepE_ok b e kv (h kv (by simp))]
    simpa using ih (Entry.evalKeywordStep b e kv) (fun p hp => h p (by simp [hp]))

theorem evalAuthorsAuxE_ok (frag : List Char) (w : Int)
    (h : regexLiteral frag = true) : ∀ (as : List String) (i : Nat) (acc : Entry),
    evalAuthorsAuxE frag w as i acc = Except.ok (evalAuthorsAux frag w as i acc) := by
  intro as
  induction as with
  | nil => intro i acc; rfl
  | cons a rest ih =>
    intro i acc
    unfold evalAuthorsAuxE evalAuthorsAux wbCompileOk
    rw [if_pos h]
    exact ih (i + 1) _

theorem foldStepsE_au_ok (aus : List (String × Int)) :
    ∀ e : Entry, (∀ kv ∈ aus, regexLiteral kv.1.data = true) →
      foldStepsE (fun acc kv => evalAuthorsAuxE kv.1.data kv.2 acc.authors 0 acc) aus e
        = Except.ok (aus.foldl Entry.evalAuthorStep e) := by
  induction aus with
  | nil => intro e h; rfl
  | cons kv rest ih =>
    intro e h
    unfold foldStepsE
    rw [evalAuthorsAuxE_ok kv.1.data kv.2 (h kv (by simp)) e.authors 0 e]
    simpa [Entry.evalAuthorStep] using ih (Entry.evalAuthorStep e kv)
      (fun p hp => h p (by simp [hp]))

theorem evaluateE_ok (e : Entry) (kws aus : List (String × Int)) (b : Bool)
    (hkw : ∀ kv ∈ kws, regexLiteral (lowerL kv.1.data) = true)
    (hau : ∀ kv ∈ aus, regexLiteral kv.1.data = true) :
    e.evaluateE kws aus b = Except.ok (e.evaluate kws aus b) := by
  unfold Entry.evaluateE Entry.evaluate
  rw [foldStepsE_kw_ok b kws { e with rating := 0 } hkw]
  exact foldStepsE_au_ok aus _ hau

theorem evaluate_entriesE_ok (entries : List Entry) (kws aus : List (String × Int))
    (b : Bool) (hkw : ∀ kv ∈ kws, regexLiteral (lowerL kv.1.data) = true)
    (hau : ∀ kv ∈ aus, regexLiteral kv.1.data = true) :
    evaluate_entriesE entries kws aus b
      = Except.ok (evaluate_entries entries kws aus b) := by
  induction entries with
  | nil => rfl
  | cons e rest ih =>
    unfold evaluate_entriesE evaluate_entries
    rw [evaluateE_ok e kws aus b hkw hau]
    simp only [List.map_cons]
    rw [show evaluate_entriesE rest kws aus b
        = Except.ok (evaluate_entries rest kws aus b) from ih]
    rfl

/-- C1 counterexample: `evaluate` does not reset `author_marks`, so the claim's
"exactly those author indices marked true" fails.  After evaluating
`sampleEntry` once with the author table `{"Smith": 5}` and then again with
empty tables, no (fragment, author) pair matches in the second call, yet
`author_marks` is still `[true, false]` rather than `[false, false]`. -/
theorem c1_counterexample :
    (((sampleEntry.evaluate [] [("Smith", 5)] true).evaluate [] [] true).author_marks
        = [true, false])
    ∧ (((sampleEntry.evaluate [] [("Smith", 5)] true).evaluate [] [] true).author_marks
        ≠ [false, false]) := by
  constructor
  · rfl
  · decide

/-- C1 (amended): for every Entry whose `author_marks` has one flag per author
and rating tables free of regex metacharacters (the domain on which `re`
behaves literally and raises nothing), `evaluate` sets and returns a rating
equal to the specification's sum formula, and after the call an author index
is marked true exactly when it was already true before the call or some
author fragment occurs case-insensitively as a whole word in that author's
name (marks are never cleared). -/
theorem c1_evaluate_rating_and_marks (e : Entry) (kws aus : List (String × Int))
    (b : Bool) (hlen : e.author_marks.length = e.authors.length)
    (hkw : ∀ kv ∈ kws, regexLiteral (lowerL kv.1.data) = true)
    (hau : ∀ kv ∈ aus, regexLiteral kv.1.data = true) :
    (e.evaluate kws aus b).rating
      = ratingFormula e.title e.abstract e.authors kws aus b
    ∧ ∀ j : Nat, j < e.authors.length →
        (e.evaluate kws aus b).author_marks.getD j false
          = (e.author_marks.getD j false
             || aus.any (fun kv => wbSearch kv.1.data ((e.authors.getD j "").data))) := by
  obtain ⟨-, -, -, -, -, h6⟩ := evaluate_fold e kws aus b
  refine ⟨h6, fun j hja => ?_⟩
  exact evaluate_marks_getD e kws aus b j (by rw [hlen]; exact hja) hja

/-- Witness for C1 on scenario 1 + 2 of the specification. -/
theorem c1_witness :
    (sampleEntry.author_marks.length = sampleEntry.authors.length)
    ∧ ((sampleEntry.evaluate [("ai", 2)] [("Smith", 5)] true).rating
        = ratingFormula sampleEntry.title sampleEntry.abstract sampleEntry.authors
            [("ai", 2)] [("Smith", 5)] true
      ∧ ∀ j : Nat, j < sampleEntry.authors.length →
          (sampleEntry.evaluate [("ai", 2)] [("Smith", 5)] true).author_marks.getD j false
            = (sampleEntry.author_marks.getD j false
               || [("Smith", (5 : Int))].any
                    (fun kv => wbSearch kv.1.data ((sampleEntry.authors.getD j "").data)))) :=
  ⟨by decide,
    c1_evaluate_rating_and_marks sampleEntry [("ai", 2)] [("Smith", 5)] true
      (by decide) (by decide) (by decide)⟩

/-- C3 counterexample: `title_marks` is a Python list, not a set.  Marking
position 0 twice appends a duplicate, so marking a position already present
does change `title_marks`. -/
theorem c3_counterexample :
    ((tinyEntry.mark_title_position 0).mark_title_position 0).title_marks
      ≠ (tinyEntry.mark_title_position 0).title_marks := by
  decide

/-- C3 (amended): `title_marks` is an append-only list, so re-marking a
present offset appends a duplicate; what is idempotent is the SET of marked
offsets: an offset is in `title_marks` after evaluating twice with the same
tables iff it is there after evaluating once. -/
theorem c3_marks_membership_idempotent (e : Entry) (kws aus : List (String × Int))
    (b : Bool) (p : Nat) :
    (p ∈ ((e.evaluate kws aus b).evaluate kws aus b).title_marks
      ↔ p ∈ (e.evaluate kws aus b).title_marks) := by
  obtain ⟨h1, -, -, -, h5, -⟩ := evaluate_fold e kws aus b
  obtain ⟨-, -, -, -, g5, -⟩ := evaluate_fold (e.evaluate kws aus b) kws aus b
  rw [g5, h5, h1]
  simp only [List.mem_append]
  tauto

/-- C4 counterexample: `evaluate` does not reset `title_marks`.  Evaluating
`tinyEntry` with keyword table `{"a": 1}` marks offset 0; re-evaluating with
empty tables leaves the mark in place, instead of the claimed "no marks". -/
theorem c4_counterexample :
    ((tinyEntry.evaluate [("a", 1)] [] true).evaluate [] [] true).title_marks ≠ [] := by
  decide

/-- C4 (amended): `evaluate` resets and repopulates only `rating`;
`title_marks` and `author_marks` are never reset.  Evaluating with empty
rating tables yields rating 0 and adds no marks, but pre-existing marks from
earlier evaluations survive unchanged. -/
theorem c4_evaluate_resets_rating_only (e : Entry) (b : Bool) :
    (e.evaluate [] [] b).rating = 0
    ∧ (e.evaluate [] [] b).title_marks = e.title_marks
    ∧ (e.evaluate [] [] b).author_marks = e.author_marks :=
  ⟨rfl, rfl, rfl⟩

/-- C7: evaluating the same Entry twice with the same tables yields the same
final rating as evaluating it once, because `evaluate` resets the rating to 0
before accumulating and reads only the immutable fields it preserves. -/
theorem c7_evaluate_rating_idempotent (e : Entry) (kws aus : List (String × Int))
    (b : Bool) :
    ((e.evaluate kws aus b).evaluate kws aus b).rating
      = (e.evaluate kws aus b).rating := by
  obtain ⟨h1, h2, h3, -, -, h6⟩ := evaluate_fold e kws aus b
  obtain ⟨-, -, -, -, -, g6⟩ := evaluate_fold (e.evaluate kws aus b) kws aus b
  rw [g6, h6, h1, h2, h3]

/-- C8: `len(author_marks) == len(authors)` holds at construction and is
preserved exactly by `mark_author` and by `evaluate` (neither touches
`authors`, and marking only sets an existing flag). -/
theorem c8_author_marks_length_invariant :
    (∀ (i t : String) (as : List String) (ab ds du cat : String) (num : Option Int),
        (Entry.init i t as ab ds du cat num).author_marks.length
          = (Entry.init i t as ab ds du cat num).authors.length)
    ∧ (∀ (e : Entry) (n : Nat),
        (e.mark_author n).author_marks.length = e.author_marks.length
        ∧ (e.mark_author n).authors = e.authors)
    ∧ (∀ (e : Entry) (kws aus : List (String × Int)) (b : Bool),
        (e.evaluate kws aus b).author_marks.length = e.author_marks.length
        ∧ (e.evaluate kws aus b).authors = e.authors) := by
  refine ⟨?_, ?_, ?_⟩
  · intro i t as ab ds du cat num
    simp [Entry.init]
  · intro e n
    exact ⟨by simp [Entry.mark_author], rfl⟩
  · intro e kws aus b
    obtain ⟨-, -, h3, h4, -, -⟩ := evaluate_fold e kws aus b
    exact ⟨h4, h3⟩

/-- C9 counterexample: weights may be negative, and then an evaluated entry
can carry the sentinel value.  Evaluating `tinyEntry` (title `"a"`) with the
keyword table `{"a": -1}` returns the rating `-1 < 0`. -/
theorem c9_counterexample : (tinyEntry.evaluate [("a", -1)] [] false).rating < 0 := by
  decide

/-- C9 (amended): when every weight in both tables is non-negative, the rating
after `evaluate` is non-negative and hence distinguishable from the
unevaluated sentinel `-1`; with negative weights the code can return `-1`. -/
theorem c9_rating_nonneg (e : Entry) (kws aus : List (String × Int)) (b : Bool)
    (hkw : ∀ kv ∈ kws, 0 ≤ kv.2) (hau : ∀ kv ∈ aus, 0 ≤ kv.2) :
    0 ≤ (e.evaluate kws aus b).rating := by
  obtain ⟨-, -, -, -, -, h6⟩ := evaluate_fold e kws aus b
  rw [h6]
  unfold ratingFormula
  have hk : 0 ≤ (kws.map (keywordScore e.title e.abstract b)).sum := by
    apply List.sum_nonneg
    intro x hx
    simp only [List.mem_map] at hx
    obtain ⟨kv, hkv, rfl⟩ := hx
    have hw := hkw kv hkv
    unfold keywordScore
    apply add_nonneg
    · exact mul_nonneg (Int.natCast_nonneg _) hw
    · split
      · exact mul_nonneg (Int.natCast_nonneg _) hw
      · exact le_refl 0
  have ha : 0 ≤ (aus.map (authorScore e.authors)).sum := by
    apply List.sum_nonneg
    intro x hx
    simp only [List.mem_map] at hx
    obtain ⟨kv, hkv, rfl⟩ := hx
    have hw := hau kv hkv
    unfold authorScore
    exact mul_nonneg (Int.natCast_nonneg _) hw
  exact add_nonneg hk ha

/-- Witness for C9 with the all-non-negative table `{"a": 2}`. -/
theorem c9_witness :
    (∀ kv ∈ [("a", (2 : Int))], 0 ≤ kv.2)
    ∧ (∀ kv ∈ ([] : List (String × Int)), 0 ≤ kv.2)
    ∧ 0 ≤ (tinyEntry.evaluate [("a", 2)] [] true).rating :=
  ⟨by decide, by decide,
    c9_rating_nonneg tinyEntry [("a", 2)] [] true (by decide) (by decide)⟩

/-- C5 counterexample: a keyword containing a regex metacharacter breaks mark
coverage because `re.finditer` receives the raw keyword as a pattern.  With
keyword `"("` and a title containing `"("`, the count is positive but the
pattern does not compile, so evaluation raises `re.error` and there is no
post-`evaluate` state with the occurrence's offsets marked. -/
theorem c5_counterexample :
    (0 < pyCount (lowerL ("(" : String).data) (lowerL ("f(x)" : String).data))
    ∧ ({ tinyEntry with title := "f(x)" }.evaluateE [("(", 1)] [] true
        = Except.error "re.error") := by
  constructor
  · decide
  · rfl

/-- C5 (amended): for metacharacter-free rating tables, after `evaluate` every
character offset covered by every non-overlapping occurrence of a keyword
whose case-insensitive count in the title is positive is present in
`title_marks`, and no previously present mark is ever removed. -/
theorem c5_mark_coverage (e : Entry) (kws aus : List (String × Int)) (b : Bool)
    (kv : String × Int) (hkv : kv ∈ kws)
    (hkw : ∀ p ∈ kws, regexLiteral (lowerL p.1.data) = true)
    (hau : ∀ p ∈ aus, regexLiteral p.1.data = true)
    (hc : 0 < pyCount (lowerL kv.1.data) (lowerL e.title.data)) :
    (∀ sp ∈ occSpans (lowerL kv.1.data) (lowerL e.title.data) 0,
        ∀ p : Nat, sp.1 ≤ p → p < sp.2 → p ∈ (e.evaluate kws aus b).title_marks)
    ∧ (∀ p ∈ e.title_marks, p ∈ (e.evaluate kws aus b).title_marks) := by
  obtain ⟨-, -, -, -, h5, -⟩ := evaluate_fold e kws aus b
  rw [h5]
  constructor
  · intro sp hsp p hp1 hp2
    rw [List.mem_append]
    right
    rw [List.mem_flatMap]
    refine ⟨kv, hkv, ?_⟩
    unfold keywordStepMarks
    rw [if_pos hc]
    unfold keywordMarkList
    rw [List.mem_flatMap]
    refine ⟨0, by simpa using hc, ?_⟩
    rw [List.mem_flatMap]
    refine ⟨sp, hsp, ?_⟩
    rw [List.mem_range']
    exact ⟨p - sp.1, by omega, by omega⟩
  · intro p hp
    exact List.mem_append.mpr (Or.inl hp)

/-- Witness for C5 on scenario 1 of the specification. -/
theorem c5_witness :
    ((("AI", (2 : Int)) ∈ [("AI", (2 : Int))])
    ∧ 0 < pyCount (lowerL ("AI" : String).data) (lowerL sampleEntry.title.data))
    ∧ ((∀ sp ∈ occSpans (lowerL ("AI" : String).data) (lowerL sampleEntry.title.data) 0,
          ∀ p : Nat, sp.1 ≤ p → p < sp.2 →
            p ∈ (sampleEntry.evaluate [("AI", 2)] [] true).title_marks)
      ∧ (∀ p ∈ sampleEntry.title_marks,
            p ∈ (sampleEntry.evaluate [("AI", 2)] [] true).title_marks)) :=
  ⟨⟨by decide, by decide⟩,
    c5_mark_coverage sampleEntry [("AI", 2)] [] true ("AI", 2)
      (by decide) (by decide) (by decide) (by decide)⟩

/-- C2: `sort_entries` returns exactly the input entries with
`rating >= rating_min` (as a permutation of the filtered input), sorted by
rating descending when `reverse` is false and ascending when it is true,
stably (entries of every fixed rating keep their relative input order), and
truncated to the first `length` entries when `length` is given and
non-negative, unbounded when it is absent or negative. -/
theorem c2_sort_entries_spec (entries : List Entry) (rmin : Int) (rev : Bool) :
    (sort_entries entries rmin rev none).Perm
        (entries.filter (fun e => decide (rmin ≤ e.rating)))
    ∧ (sort_entries entries rmin rev none).Pairwise
        (fun a b => if rev then a.rating ≤ b.rating else b.rating ≤ a.rating)
    ∧ (∀ r : Int,
        (sort_entries entries rmin rev none).filter (fun e => decide (e.rating = r))
          = (entries.filter (fun e => decide (rmin ≤ e.rating))).filter
              (fun e => decide (e.rating = r)))
    ∧ (∀ n : Int,
        sort_entries entries rmin rev (some n)
          = if n < 0 then sort_entries entries rmin rev none
            else (sort_entries entries rmin rev none).take n.toNat) := by
  have hperm :
      ((entries.filter (fun e => decide (rmin ≤ e.rating))).mergeSort (sortLE rev)).Perm
        (entries.filter (fun e => decide (rmin ≤ e.rating))) :=
    List.mergeSort_perm _ _
  refine ⟨?_, ?_, ?_, ?_⟩
  · rw [sort_entries_none_eq]
    exact hperm
  · rw [sort_entries_none_eq]
    have hsorted :=
      List.sorted_mergeSort
        (fun a b c => sortLE_trans rev a b c) (fun a b => sortLE_total rev a b)
        (entries.filter (fun e => decide (rmin ≤ e.rating)))
    refine hsorted.imp ?_
    intro a b h
    unfold sortLE at h
    cases rev <;> simpa using h
  · intro r
    rw [sort_entries_none_eq]
    set fl := entries.filter (fun e => decide (rmin ≤ e.rating)) with hfl
    set s := fl.filter (fun e => decide (e.rating = r)) with hs
    have hmem : ∀ a ∈ s, a.rating = r := by
      intro a ha
      rw [hs, List.mem_filter] at ha
      simpa using ha.2
    have hs_pw : s.Pairwise (fun a b => sortLE rev a b = true) := by
      apply List.pairwise_of_forall_mem_list
      intro a ha b hb
      unfold sortLE
      cases rev <;> simp [hmem a ha, hmem b hb]
    have h1 : List.Sublist s (fl.mergeSort (sortLE rev)) :=
      List.sublist_mergeSort (fun a b c => sortLE_trans rev a b c)
        (fun a b => sortLE_total rev a b) hs_pw (List.filter_sublist _)
    have h2 : List.Sublist (s.filter (fun e => decide (e.rating = r)))
        ((fl.mergeSort (sortLE rev)).filter (fun e => decide (e.rating = r))) :=
      h1.filter _
    have hss : s.filter (fun e => decide (e.rating = r)) = s := by
      apply List.filter_eq_self.mpr
      intro a ha
      simpa using hmem a ha
    rw [hss] at h2
    have h3 : ((fl.mergeSort (sortLE rev)).filter
        (fun e => decide (e.rating = r))).Perm s := hperm.filter _
    exact (h2.eq_of_length h3.length_eq.symm).symm
  · intro n
    by_cases hn : n < 0
    · simp [sort_entries, hn]
    · simp [sort_entries, hn]

/-- C10: `sort_entries` only filters, reorders and slices: its result is a
sub-permutation of the input list, made of the very entries it was given,
each unchanged (the function builds no new entry and, being pure, mutates
nothing). -/
theorem c10_sort_entries_subperm (entries : List Entry) (rmin : Int) (rev : Bool)
    (len : Option Int) :
    (sort_entries entries rmin rev len).Subperm entries := by
  have hms :
      ((entries.filter (fun e => decide (rmin ≤ e.rating))).mergeSort
          (sortLE rev)).Subperm entries :=
    (List.mergeSort_perm _ _).subperm.trans (List.filter_sublist _).subperm
  cases len with
  | none => exact hms
  | some n =>
    by_cases hn : n < 0
    · simpa [sort_entries, hn] using hms
    · have ht := List.take_sublist n.toNat
        ((entries.filter (fun e => decide (rmin ≤ e.rating))).mergeSort (sortLE rev))
      simpa [sort_entries, hn] using ht.subperm.trans hms

/-- C6 counterexample: the evaluator is not total over arbitrary keyword
strings.  The keyword `"("` has a positive count in the title `"f(x)"`, so
`mark_title_keyword` hands `"("` to `re.finditer` as a pattern, which raises
`re.error` (unbalanced parenthesis) instead of returning. -/
theorem c6_counterexample :
    ({ tinyEntry with title := "f(x)" } : Entry).evaluateE [("(", 1)] [] true
      = Except.error "re.error" := rfl

/-- C6 (amended): `evaluate` and `evaluate_entries` raise no exception and
agree with the total evaluator as long as every keyword (after lowering) and
every author fragment is free of regex metacharacters; `sort_entries` invokes
no fallible primitive at all.  A keyword such as `"("` with a positive count,
or any metacharacter author fragment, raises `re.error`. -/
theorem c6_total_on_literal_tables (e : Entry) (entries : List Entry)
    (kws aus : List (String × Int)) (b : Bool)
    (hkw : ∀ kv ∈ kws, regexLiteral (lowerL kv.1.data) = true)
    (hau : ∀ kv ∈ aus, regexLiteral kv.1.data = true) :
    e.evaluateE kws aus b = Except.ok (e.evaluate kws aus b)
    ∧ evaluate_entriesE entries kws aus b
        = Except.ok (evaluate_entries entries kws aus b) :=
  ⟨evaluateE_ok e kws aus b hkw hau, evaluate_entriesE_ok entries kws aus b hkw hau⟩

/-- Witness for C6 on the specification's scenario tables. -/
theorem c6_witness :
    (∀ kv ∈ [("ai", (2 : Int))], regexLiteral (lowerL kv.1.data) = true)
    ∧ (∀ kv ∈ [("Smith", (5 : Int))], regexLiteral kv.1.data = true)
    ∧ (sampleEntry.evaluateE [("ai", 2)] [("Smith", 5)] true
        = Except.ok (sampleEntry.evaluate [("ai", 2)] [("Smith", 5)] true)
      ∧ evaluate_entriesE [sampleEntry] [("ai", 2)] [("Smith", 5)] true
        = Except.ok (evaluate_entries [sampleEntry] [("ai", 2)] [("Smith", 5)] true)) :=
  ⟨by decide, by decide,
    c6_total_on_literal_tables sampleEntry [sampleEntry] [("ai", 2)] [("Smith", 5)]
      true (by decide) (by decide)⟩
